import Mathlib

/-!
Shallow embedding of the CREWBRAIN Code Compiler analysis pipeline
(`Code_Compiler.py`): path filtering, directory scanning, per-file metric
extraction (the regex-based counters), token aggregation, directory-tree
rendering and report generation, together with proofs about the claims of
the specification.

Conventions of the embedding:
  * a filesystem snapshot is an `Entry` tree whose child lists are in the
    order `Path.iterdir` returns them;
  * the tiktoken encoder is an arbitrary function `tok : String → Nat`
    (the source only ever calls `len(encoding.encode text)`);
  * text decoding always succeeds because the source falls back to
    latin-1, which accepts every byte string, so a file's decoded text is
    stored directly in the model; its on-disk byte size is stored
    separately (`st_size` is a property of the encoded bytes).
-/

/-- Character class used by the regex metacharacter `\w` in the source's
counting patterns (restricted to its ASCII fragment). -/
def isWordChar (c : Char) : Bool := c.isAlphanum || c == '_'

/-- Character class used by the regex metacharacter `\s`. -/
def isSpaceChar (c : Char) : Bool :=
  c == ' ' || c == '\t' || c == '\n' || c == '\r' || c == '\x0b' || c == '\x0c'

theorem space_not_word {c : Char} (h : isSpaceChar c = true) : isWordChar c = false := by
  simp only [isSpaceChar, Bool.or_eq_true, beq_iff_eq] at h
  rcases h with ((((h|h)|h)|h)|h)|h <;> subst h <;> rfl

/-- Greedy maximal munch of a character class, the semantics of the regex
atoms `\s+`, `\s*` and `\w+` in the source's patterns (backtracking can
never shorten these runs in the patterns at hand, see the comments at the
match functions below). -/
def takeRun (p : Char → Bool) : List Char → List Char × List Char
  | [] => ([], [])
  | c :: cs => if p c then (c :: (takeRun p cs).1, (takeRun p cs).2) else ([], c :: cs)

theorem takeRun_append (p : Char → Bool) : ∀ l : List Char, (takeRun p l).1 ++ (takeRun p l).2 = l := by
  intro l
  induction l with
  | nil => rfl
  | cons c cs ih =>
    by_cases h : p c = true
    · simp [takeRun, h, ih]
    · simp at h
      simp [takeRun, h]

theorem takeRun_taken (p : Char → Bool) : ∀ l : List Char, ∀ c ∈ (takeRun p l).1, p c = true := by
  intro l
  induction l with
  | nil => simp [takeRun]
  | cons c cs ih =>
    by_cases h : p c = true
    · simp only [takeRun, h, if_true]
      intro x hx
      rcases List.mem_cons.mp hx with h1 | h1
      · exact h1 ▸ h
      · exact ih x h1
    · simp at h
      simp [takeRun, h]

theorem takeRun_head_false {p : Char → Bool} {c : Char} {cs : List Char} (h : p c = false) :
    takeRun p (c :: cs) = ([], c :: cs) := by
  simp [takeRun, h]

theorem takeRun_all_append {p : Char → Bool} :
    ∀ {xs : List Char} {y : Char} {ys : List Char}, (∀ c ∈ xs, p c = true) → p y = false →
      takeRun p (xs ++ y :: ys) = (xs, y :: ys) := by
  intro xs
  induction xs with
  | nil =>
    intro y ys _ hy
    simp only [List.nil_append]
    exact takeRun_head_false hy
  | cons x xs ih =>
    intro y ys hall hy
    have hx : p x = true := hall x (by simp)
    have tail := @ih y ys (fun c hc => hall c (by simp [hc])) hy
    simp [takeRun, hx, tail]

/-- Matcher for the common part `\bdef\s+\w+\s*\(` of the source's
`functions` pattern `\bdef\s+\w+\s*\(` and `methods` pattern
`\bdef\s+\w+\s*\(self` (re lines 181 and 183 of `Code_Compiler.py`).
The word-boundary `\b` is checked by the caller through the preceding
character. Greedy matching without backtracking is exact here: shortening
`\s+`/`\w+`/`\s*` would put a character of the same class where the next
pattern atom demands a different class. Returns the input remaining after
the `(`. -/
def matchDefCommon (cs : List Char) : Option (List Char) :=
  match cs with
  | 'd' :: 'e' :: 'f' :: cs1 =>
    if (takeRun isSpaceChar cs1).1.isEmpty then none
    else if (takeRun isWordChar (takeRun isSpaceChar cs1).2).1.isEmpty then none
    else
      match (takeRun isSpaceChar (takeRun isWordChar (takeRun isSpaceChar cs1).2).2).2 with
      | '(' :: r4 => some r4
      | _ => none
  | _ => none

/-- Matcher for the literal `self` that the `methods` pattern requires
right after the `(`. -/
def stripSelf : List Char → Option (List Char)
  | 's' :: 'e' :: 'l' :: 'f' :: r => some r
  | _ => none

theorem stripSelf_spec {l r : List Char} (h : stripSelf l = some r) :
    l = 's' :: 'e' :: 'l' :: 'f' :: r := by
  unfold stripSelf at h
  split at h
  · simp_all
  · simp_all

theorem matchDefCommon_spec {cs r : List Char} (h : matchDefCommon cs = some r) :
    ∃ sp1 w sp2, cs = 'd' :: 'e' :: 'f' :: (sp1 ++ w ++ sp2 ++ '(' :: r) ∧
      sp1 ≠ [] ∧ w ≠ [] ∧ (∀ c ∈ sp1, isSpaceChar c = true) ∧
      (∀ c ∈ w, isWordChar c = true) ∧ (∀ c ∈ sp2, isSpaceChar c = true) := by
  unfold matchDefCommon at h
  split at h
  case _ cs1 =>
    by_cases hs1 : (takeRun isSpaceChar cs1).1.isEmpty = true
    · simp [hs1] at h
    · rw [if_neg hs1] at h
      by_cases hs2 : (takeRun isWordChar (takeRun isSpaceChar cs1).2).1.isEmpty = true
      · simp [hs2] at h
      · rw [if_neg hs2] at h
        split at h
        case _ r4 heq =>
          injection h with h
          subst h
          refine ⟨(takeRun isSpaceChar cs1).1, (takeRun isWordChar (takeRun isSpaceChar cs1).2).1,
            (takeRun isSpaceChar (takeRun isWordChar (takeRun isSpaceChar cs1).2).2).1,
            ?_, ?_, ?_, takeRun_taken _ _, takeRun_taken _ _, takeRun_taken _ _⟩
          · have e1 := takeRun_append isSpaceChar cs1
            have e2 := takeRun_append isWordChar (takeRun isSpaceChar cs1).2
            have e3 := takeRun_append isSpaceChar (takeRun isWordChar (takeRun isSpaceChar cs1).2).2
            rw [heq] at e3
            simp only [List.cons.injEq, true_and, List.append_assoc]
            rw [e3, e2, e1]
          · simpa [List.isEmpty_iff] using hs1
          · simpa [List.isEmpty_iff] using hs2
        case _ => exact absurd h (by simp)
  case _ =>
    exact absurd h (by simp)

theorem matchDefCommon_length {cs r : List Char} (h : matchDefCommon cs = some r) :
    r.length + 6 ≤ cs.length := by
  obtain ⟨sp1, w, sp2, hcs, hsp1, hw, -, -, -⟩ := matchDefCommon_spec h
  subst hcs
  have h1 : 1 ≤ sp1.length := List.length_pos.mpr hsp1
  have h2 : 1 ≤ w.length := List.length_pos.mpr hw
  simp [List.length_append]
  omega

theorem matchDefCommon_not_d {c : Char} (cs : List Char) (h : c ≠ 'd') :
    matchDefCommon (c :: cs) = none := by
  unfold matchDefCommon
  split
  case _ => simp_all
  case _ => rfl

theorem matchDefCommon_not_e {c2 : Char} (cs : List Char) (h : c2 ≠ 'e') :
    matchDefCommon ('d' :: c2 :: cs) = none := by
  unfold matchDefCommon
  split
  case _ => simp_all
  case _ => rfl

theorem matchDefCommon_not_f {c3 : Char} (cs : List Char) (h : c3 ≠ 'f') :
    matchDefCommon ('d' :: 'e' :: c3 :: cs) = none := by
  unfold matchDefCommon
  split
  case _ => simp_all
  case _ => rfl

/-- Word-boundary test `\b` before a word character, in terms of the
character preceding the current scan position (`none` at the start of the
text). -/
def boundaryOK : Option Char → Bool
  | none => true
  | some c => !isWordChar c

/-- One attempt of the `functions` pattern `\bdef\s+\w+\s*\(` at the
current scan position. -/
def tryFunctionAt (prev : Option Char) (l : List Char) : Option (List Char) :=
  if boundaryOK prev then matchDefCommon l else none

/-- One attempt of the `methods` pattern `\bdef\s+\w+\s*\(self` at the
current scan position. -/
def tryMethodAt (prev : Option Char) (l : List Char) : Option (List Char) :=
  match tryFunctionAt prev l with
  | some rest => stripSelf rest
  | none => none

theorem tryFunctionAt_length {prev : Option Char} {l r : List Char}
    (h : tryFunctionAt prev l = some r) : r.length + 6 ≤ l.length := by
  unfold tryFunctionAt at h
  split at h
  · exact matchDefCommon_length h
  · exact absurd h (by simp)

theorem tryMethodAt_length {prev : Option Char} {l r : List Char}
    (h : tryMethodAt prev l = some r) : r.length + 10 ≤ l.length := by
  unfold tryMethodAt at h
  split at h
  case _ rest heq =>
    have h1 := tryFunctionAt_length heq
    have h2 := stripSelf_spec h
    subst h2
    simp at h1
    omega
  case _ => exact absurd h (by simp)

/-- Scanner with the semantics of `re.findall` for the `functions`
pattern: try the pattern at each position from left to right, and on a
match continue right after the matched text (whose final character is the
`(`). `len(re.findall(r'\bdef\s+\w+\s*\(', content))` at source line 181. -/
def countDefs (prev : Option Char) (l : List Char) : Nat :=
  match l with
  | [] => 0
  | c :: cs =>
    match h : tryFunctionAt prev (c :: cs) with
    | some rest => 1 + countDefs (some '(') rest
    | none => countDefs (some c) cs
termination_by l.length
decreasing_by
  · have := tryFunctionAt_length h
    simp at this ⊢
    omega
  · simp

/-- Scanner with the semantics of `re.findall` for the `methods` pattern:
on a match the text consumed ends with `...(self`, so the scan continues
after the `f`. `len(re.findall(r'\bdef\s+\w+\s*\(self', content))` at
source line 183. -/
def countMethodsAux (prev : Option Char) (l : List Char) : Nat :=
  match l with
  | [] => 0
  | c :: cs =>
    match h : tryMethodAt prev (c :: cs) with
    | some rest => 1 + countMethodsAux (some 'f') rest
    | none => countMethodsAux (some c) cs
termination_by l.length
decreasing_by
  · have := tryMethodAt_length h
    simp at this ⊢
    omega
  · simp

def countFunctions (s : String) : Nat := countDefs none s.toList

def countMethods (s : String) : Nat := countMethodsAux none s.toList

theorem word_not_space {c : Char} (h : isWordChar c = true) : isSpaceChar c = false := by
  cases hs : isSpaceChar c
  · rfl
  · rw [space_not_word hs] at h
    exact absurd h (by simp)

theorem countDefs_nil (prev : Option Char) : countDefs prev [] = 0 := by
  rw [countDefs]

theorem countDefs_step {prev : Option Char} {c : Char} {cs : List Char}
    (h : tryFunctionAt prev (c :: cs) = none) :
    countDefs prev (c :: cs) = countDefs (some c) cs := by
  rw [countDefs]
  split
  · rename_i rest hr
    rw [h] at hr
    exact absurd hr (by simp)
  · rfl

theorem countDefs_found {prev : Option Char} {c : Char} {cs rest : List Char}
    (h : tryFunctionAt prev (c :: cs) = some rest) :
    countDefs prev (c :: cs) = 1 + countDefs (some '(') rest := by
  rw [countDefs]
  split
  · rename_i r hr
    rw [h] at hr
    injection hr with hr
    rw [hr]
  · rename_i hr
    rw [h] at hr
    exact absurd hr (by simp)

theorem countM_nil (prev : Option Char) : countMethodsAux prev [] = 0 := by
  rw [countMethodsAux]

theorem countM_step {prev : Option Char} {c : Char} {cs : List Char}
    (h : tryMethodAt prev (c :: cs) = none) :
    countMethodsAux prev (c :: cs) = countMethodsAux (some c) cs := by
  rw [countMethodsAux]
  split
  · rename_i rest hr
    rw [h] at hr
    exact absurd hr (by simp)
  · rfl

theorem countM_found {prev : Option Char} {c : Char} {cs rest : List Char}
    (h : tryMethodAt prev (c :: cs) = some rest) :
    countMethodsAux prev (c :: cs) = 1 + countMethodsAux (some 'f') rest := by
  rw [countMethodsAux]
  split
  · rename_i r hr
    rw [h] at hr
    injection hr with hr
    rw [hr]
  · rename_i hr
    rw [h] at hr
    exact absurd hr (by simp)

theorem getLastD_keeps {p : Char → Bool} {s : Char} {l : List Char} (hs : p s = true)
    (hl : ∀ c ∈ l, p c = true) : p (l.getLastD s) = true := by
  rcases List.mem_cons.mp (List.getLastD_mem_cons l s) with h | h
  · rw [h]; exact hs
  · exact hl _ h

theorem tryFunctionAt_wordPrev {p : Char} (h : isWordChar p = true) (l : List Char) :
    tryFunctionAt (some p) l = none := by
  simp [tryFunctionAt, boundaryOK, h]

theorem tryMethodAt_of_tryFunction {prev : Option Char} {l : List Char}
    (h : tryFunctionAt prev l = none) : tryMethodAt prev l = none := by
  simp [tryMethodAt, h]

theorem tryMethodAt_wordPrev {p : Char} (h : isWordChar p = true) (l : List Char) :
    tryMethodAt (some p) l = none :=
  tryMethodAt_of_tryFunction (tryFunctionAt_wordPrev h l)

theorem tryFunctionAt_not_d {prev : Option Char} {c : Char} (cs : List Char) (h : c ≠ 'd') :
    tryFunctionAt prev (c :: cs) = none := by
  unfold tryFunctionAt
  rw [matchDefCommon_not_d cs h]
  split <;> rfl

theorem tryMethodAt_not_d {prev : Option Char} {c : Char} (cs : List Char) (h : c ≠ 'd') :
    tryMethodAt prev (c :: cs) = none :=
  tryMethodAt_of_tryFunction (tryFunctionAt_not_d cs h)

/-- The method scanner steps through a run of word characters without
finding a match when the preceding character is a word character: the
boundary `\b` fails at every position. -/
theorem countM_skip_word : ∀ (w : List Char) (p : Char) (rest : List Char),
    (∀ c ∈ w, isWordChar c = true) → isWordChar p = true →
    countMethodsAux (some p) (w ++ rest) = countMethodsAux (some (w.getLastD p)) rest := by
  intro w
  induction w with
  | nil => intro p rest _ _; simp
  | cons c w ih =>
    intro p rest hall hp
    rw [List.cons_append, countM_step (tryMethodAt_wordPrev hp _), List.getLastD_cons]
    exact ih c rest (fun x hx => hall x (by simp [hx])) (hall c (by simp))

/-- The method scanner steps through a run of whitespace without finding
a match: whitespace is never the `d` that the pattern starts with. -/
theorem countM_skip_space : ∀ (sp : List Char) (p : Char) (rest : List Char),
    (∀ c ∈ sp, isSpaceChar c = true) →
    countMethodsAux (some p) (sp ++ rest) = countMethodsAux (some (sp.getLastD p)) rest := by
  intro sp
  induction sp with
  | nil => intro p rest _; simp
  | cons s sp ih =>
    intro p rest hall
    have hs : isSpaceChar s = true := hall s (by simp)
    have hsd : s ≠ 'd' := by
      intro hc
      rw [hc] at hs
      exact absurd hs (by decide)
    rw [List.cons_append, countM_step (tryMethodAt_not_d _ hsd), List.getLastD_cons]
    exact ih s rest (fun x hx => hall x (by simp [hx]))

theorem matchDefCommon_def_nospace {c4 : Char} (cs : List Char) (h : isSpaceChar c4 = false) :
    matchDefCommon ('d' :: 'e' :: 'f' :: c4 :: cs) = none := by
  have h1 : takeRun isSpaceChar (c4 :: cs) = ([], c4 :: cs) := takeRun_head_false h
  simp only [matchDefCommon]
  rw [h1]
  simp

theorem matchDefCommon_def_space_paren (sp2 rest : List Char)
    (hsp : ∀ c ∈ sp2, isSpaceChar c = true) :
    matchDefCommon ('d' :: 'e' :: 'f' :: (sp2 ++ '(' :: rest)) = none := by
  have h1 : takeRun isSpaceChar (sp2 ++ '(' :: rest) = (sp2, '(' :: rest) :=
    takeRun_all_append hsp (by decide)
  have h2 : takeRun isWordChar ('(' :: rest) = ([], '(' :: rest) := takeRun_head_false (by decide)
  simp only [matchDefCommon]
  rw [h1]
  cases sp2 with
  | nil => simp [h2]
  | cons s sp2' => simp [h2]

/-- Inside the text consumed by one match of `\bdef\s+\w+\s*\(`, the
pattern cannot match again at the start of the `\w+` run: the only way a
`def` keyword could appear there is as a prefix of the word, and then the
mandatory `\s+` fails. -/
theorem matchDefCommon_word_block : ∀ (w sp2 rest : List Char), w ≠ [] →
    (∀ c ∈ w, isWordChar c = true) → (∀ c ∈ sp2, isSpaceChar c = true) →
    matchDefCommon (w ++ sp2 ++ '(' :: rest) = none := by
  intro w sp2 rest hw hww hsp2
  match w, hw with
  | c1 :: w1, _ =>
    by_cases h1 : c1 = 'd'
    case neg =>
      exact matchDefCommon_not_d _ h1
    case pos =>
      subst h1
      match w1 with
      | [] =>
        match sp2 with
        | [] => exact matchDefCommon_not_e _ (by decide)
        | s :: sp2' =>
          have hs := hsp2 s (by simp)
          have hse : s ≠ 'e' := by
            intro hc
            rw [hc] at hs
            exact absurd hs (by decide)
          simpa using matchDefCommon_not_e _ hse
      | c2 :: w2 =>
        by_cases h2 : c2 = 'e'
        case neg =>
          simpa using matchDefCommon_not_e _ h2
        case pos =>
          subst h2
          match w2 with
          | [] =>
            match sp2 with
            | [] => exact matchDefCommon_not_f _ (by decide)
            | s :: sp2' =>
              have hs := hsp2 s (by simp)
              have hsf : s ≠ 'f' := by
                intro hc
                rw [hc] at hs
                exact absurd hs (by decide)
              simpa using matchDefCommon_not_f _ hsf
          | c3 :: w3 =>
            by_cases h3 : c3 = 'f'
            case neg =>
              simpa using matchDefCommon_not_f _ h3
            case pos =>
              subst h3
              match w3 with
              | [] =>
                simpa using matchDefCommon_def_space_paren sp2 rest hsp2
              | c4 :: w4 =>
                have hc4 : isWordChar c4 = true := hww c4 (by simp)
                simpa using matchDefCommon_def_nospace _ (word_not_space hc4)


/-- After the method pattern has failed at the position of a successful
function-pattern match (because `self` does not follow the parenthesis),
the method scanner walks through the entire matched region
`def<spaces><word><spaces>(` without finding a match, ending up right
after the `(` with the `(` as preceding character. -/
theorem countM_skip_defmatch (sp1 w sp2 rest : List Char)
    (hsp1 : sp1 ≠ []) (hw : w ≠ [])
    (hsp1s : ∀ c ∈ sp1, isSpaceChar c = true)
    (hws : ∀ c ∈ w, isWordChar c = true)
    (hsp2s : ∀ c ∈ sp2, isSpaceChar c = true) :
    countMethodsAux (some 'd') ('e' :: 'f' :: (sp1 ++ w ++ sp2 ++ '(' :: rest)) =
      countMethodsAux (some '(') rest := by
  simp only [List.append_assoc]
  rw [countM_step (@tryMethodAt_wordPrev 'd' (by decide) _)]
  rw [countM_step (@tryMethodAt_wordPrev 'e' (by decide) _)]
  match sp1, hsp1 with
  | s :: sp1', _ =>
    have hs : isSpaceChar s = true := hsp1s s (by simp)
    rw [List.cons_append]
    rw [countM_step (@tryMethodAt_wordPrev 'f' (by decide) _)]
    rw [countM_skip_space sp1' s _ (fun c hc => hsp1s c (by simp [hc]))]
    match w, hw with
    | c0 :: w', _ =>
      have hblock : matchDefCommon (c0 :: (w' ++ (sp2 ++ '(' :: rest))) = none := by
        have hb := matchDefCommon_word_block (c0 :: w') sp2 rest (by simp) hws hsp2s
        simpa [List.append_assoc] using hb
      have htry : tryMethodAt (some (sp1'.getLastD s)) (c0 :: (w' ++ (sp2 ++ '(' :: rest))) = none := by
        apply tryMethodAt_of_tryFunction
        unfold tryFunctionAt
        rw [hblock]
        split <;> rfl
      rw [List.cons_append]
      rw [countM_step htry]
      rw [countM_skip_word w' c0 _ (fun c hc => hws c (by simp [hc])) (hws c0 (by simp))]
      have hwlast : isWordChar (w'.getLastD c0) = true :=
        getLastD_keeps (hws c0 (by simp)) (fun c hc => hws c (by simp [hc]))
      match sp2 with
      | [] =>
        simp only [List.nil_append]
        rw [countM_step (tryMethodAt_wordPrev hwlast _)]
      | s2 :: sp2' =>
        rw [List.cons_append]
        rw [countM_step (tryMethodAt_wordPrev hwlast _)]
        rw [countM_skip_space sp2' s2 _ (fun c hc => hsp2s c (by simp [hc]))]
        rw [countM_step (tryMethodAt_not_d _ (by decide))]

/-- Every position at which the `methods` pattern matches is a position at
which the `functions` pattern matches, and between two method matches the
function scanner can only be ahead; hence `re.findall` finds at most as
many `methods` occurrences as `functions` occurrences. -/
theorem countMethodsAux_le_countDefs :
    ∀ (n : Nat) (l : List Char) (prev : Option Char), l.length ≤ n →
      countMethodsAux prev l ≤ countDefs prev l := by
  intro n
  induction n with
  | zero =>
    intro l prev h
    have hl : l = [] := List.eq_nil_of_length_eq_zero (Nat.le_zero.mp h)
    subst hl
    simp [countM_nil, countDefs_nil]
  | succ n ih =>
    intro l prev h
    match l with
    | [] => simp [countM_nil, countDefs_nil]
    | c :: cs =>
      have hcs : cs.length ≤ n := by
        simp only [List.length_cons] at h
        omega
      cases hf : tryFunctionAt prev (c :: cs) with
      | none =>
        rw [countDefs_step hf, countM_step (tryMethodAt_of_tryFunction hf)]
        exact ih cs (some c) hcs
      | some rest =>
        rw [countDefs_found hf]
        cases hsf : stripSelf rest with
        | some rest2 =>
          have hm : tryMethodAt prev (c :: cs) = some rest2 := by
            unfold tryMethodAt
            rw [hf]
            exact hsf
          rw [countM_found hm]
          have hrest : rest = 's' :: 'e' :: 'l' :: 'f' :: rest2 := stripSelf_spec hsf
          subst hrest
          have hskip : countDefs (some '(') ('s' :: 'e' :: 'l' :: 'f' :: rest2) =
              countDefs (some 'f') rest2 := by
            rw [countDefs_step (tryFunctionAt_not_d _ (by decide)),
                countDefs_step (@tryFunctionAt_wordPrev 's' (by decide) _),
                countDefs_step (@tryFunctionAt_wordPrev 'e' (by decide) _),
                countDefs_step (@tryFunctionAt_wordPrev 'l' (by decide) _)]
          rw [hskip]
          have hlen : rest2.length ≤ n := by
            have hL := tryFunctionAt_length hf
            simp only [List.length_cons] at hL h
            omega
          exact Nat.add_le_add_left (ih rest2 (some 'f') hlen) 1
        | none =>
          have hm : tryMethodAt prev (c :: cs) = none := by
            unfold tryMethodAt
            rw [hf]
            exact hsf
          rw [countM_step hm]
          have hmd : matchDefCommon (c :: cs) = some rest := by
            unfold tryFunctionAt at hf
            split at hf
            · exact hf
            · exact absurd hf (by simp)
          obtain ⟨sp1, w, sp2, hshape, hsp1, hw, hsp1s, hws, hsp2s⟩ := matchDefCommon_spec hmd
          injection hshape with hc htail
          subst hc
          rw [htail]
          rw [countM_skip_defmatch sp1 w sp2 rest hsp1 hw hsp1s hws hsp2s]
          have hlen : rest.length ≤ n := by
            have hL := tryFunctionAt_length hf
            simp only [List.length_cons] at hL h
            omega
          have hle := ih rest (some '(') hlen
          omega

theorem countMethods_le_countFunctions (s : String) : countMethods s ≤ countFunctions s :=
  countMethodsAux_le_countDefs s.toList.length s.toList none (Nat.le_refl _)

/-- Matcher for the `classes` pattern `\bclass\s+\w+` (source line 182):
the literal `class`, mandatory whitespace, then a word. Returns the final
character of the matched word (the preceding character for the continued
scan) and the remaining input. -/
def matchClassRest (cs : List Char) : Option (Char × List Char) :=
  match cs with
  | 'c' :: 'l' :: 'a' :: 's' :: 's' :: cs1 =>
    if (takeRun isSpaceChar cs1).1.isEmpty then none
    else
      match takeRun isWordChar (takeRun isSpaceChar cs1).2 with
      | ([], _) => none
      | (wc :: wrest, r2) => some ((wc :: wrest).getLast (by simp), r2)
  | _ => none

theorem matchClassRest_length {cs : List Char} {lc : Char} {r : List Char}
    (h : matchClassRest cs = some (lc, r)) : r.length < cs.length := by
  unfold matchClassRest at h
  split at h
  case _ cs1 =>
    by_cases hs1 : (takeRun isSpaceChar cs1).1.isEmpty = true
    · simp [hs1] at h
    · rw [if_neg hs1] at h
      split at h
      case _ => exact absurd h (by simp)
      case _ wc wrest r2 heq =>
        injection h with h
        have hr : r2 = r := congrArg Prod.snd h
        subst hr
        have e1 := takeRun_append isSpaceChar cs1
        have e2 := takeRun_append isWordChar (takeRun isSpaceChar cs1).2
        rw [heq] at e2
        have l1 : (takeRun isSpaceChar cs1).1.length + (takeRun isSpaceChar cs1).2.length = cs1.length := by
          rw [← List.length_append, e1]
        have l2 : (wc :: wrest).length + r2.length = (takeRun isSpaceChar cs1).2.length := by
          rw [← List.length_append]
          exact congrArg List.length e2
        simp only [List.length_cons] at l2 ⊢
        omega
  case _ => exact absurd h (by simp)

/-- Matcher for the `variables` pattern `\b\w+\s*=` (source line 184):
a word, optional whitespace, then `=`. Returns the remaining input; the
scan continues with `=` as the preceding character. -/
def matchVarRest (cs : List Char) : Option (List Char) :=
  match takeRun isWordChar cs with
  | ([], _) => none
  | (_ :: _, r1) =>
    match (takeRun isSpaceChar r1).2 with
    | '=' :: r2 => some r2
    | _ => none

theorem matchVarRest_length {cs r : List Char} (h : matchVarRest cs = some r) :
    r.length < cs.length := by
  unfold matchVarRest at h
  split at h
  case _ => exact absurd h (by simp)
  case _ wc wrest r1 heq =>
    split at h
    case _ r2 heq2 =>
      injection h with h
      subst h
      have e1 := takeRun_append isWordChar cs
      rw [heq] at e1
      have e2 := takeRun_append isSpaceChar r1
      rw [heq2] at e2
      have l1 : (wc :: wrest).length + r1.length = cs.length := by
        rw [← List.length_append]
        exact congrArg List.length e1
      have l2 : (takeRun isSpaceChar r1).1.length + ('=' :: r2).length = r1.length := by
        rw [← List.length_append]
        exact congrArg List.length e2
      simp only [List.length_cons] at l1 l2
      omega
    case _ => exact absurd h (by simp)

def tryClassAt (prev : Option Char) (l : List Char) : Option (Char × List Char) :=
  if boundaryOK prev then matchClassRest l else none

def tryVarAt (prev : Option Char) (l : List Char) : Option (List Char) :=
  if boundaryOK prev then matchVarRest l else none

theorem tryClassAt_length {prev : Option Char} {l : List Char} {lc : Char} {r : List Char}
    (h : tryClassAt prev l = some (lc, r)) : r.length < l.length := by
  unfold tryClassAt at h
  split at h
  · exact matchClassRest_length h
  · exact absurd h (by simp)

theorem tryVarAt_length {prev : Option Char} {l r : List Char}
    (h : tryVarAt prev l = some r) : r.length < l.length := by
  unfold tryVarAt at h
  split at h
  · exact matchVarRest_length h
  · exact absurd h (by simp)

/-- Scanner for `len(re.findall(r'\bclass\s+\w+', content))` (line 182). -/
def countClassAux (prev : Option Char) (l : List Char) : Nat :=
  match l with
  | [] => 0
  | c :: cs =>
    match h : tryClassAt prev (c :: cs) with
    | some (lc, rest) => 1 + countClassAux (some lc) rest
    | none => countClassAux (some c) cs
termination_by l.length
decreasing_by
  · have := tryClassAt_length h
    simp at this ⊢
    omega
  · simp

/-- Scanner for `len(re.findall(r'\b\w+\s*=', content))` (line 184). -/
def countVarAux (prev : Option Char) (l : List Char) : Nat :=
  match l with
  | [] => 0
  | c :: cs =>
    match h : tryVarAt prev (c :: cs) with
    | some rest => 1 + countVarAux (some '=') rest
    | none => countVarAux (some c) cs
termination_by l.length
decreasing_by
  · have := tryVarAt_length h
    simp at this ⊢
    omega
  · simp

def countClasses (s : String) : Nat := countClassAux none s.toList

def countVariables (s : String) : Nat := countVarAux none s.toList

/-- A filesystem snapshot: one directory entry. Child lists are in the
order `Path.iterdir` returns them. A regular file carries its byte size
(`st_size`) and its decoded text (decoding always succeeds via the
latin-1 fallback of `read_file_content`). -/
inductive Entry where
  | file (name : String) (size : Nat) (content : String)
  | dir (name : String) (children : List Entry)

def entryName : Entry → String
  | .file n _ _ => n
  | .dir n _ => n

def entryIsFile : Entry → Bool
  | .file _ _ _ => true
  | .dir _ _ => false

/-- Index of the last `.` in a list of characters, if any. -/
def rfindDot : List Char → Option Nat
  | [] => none
  | c :: cs =>
    match rfindDot cs with
    | some i => some (i + 1)
    | none => if c = '.' then some 0 else none

/-- Model of `pathlib.PurePath.suffix`: the extension of the final name
component including the dot, and empty when the last dot is leading or
trailing (`.gitignore` and `name.` have no suffix). -/
def pathSuffix (name : String) : String :=
  match rfindDot name.toList with
  | some i => if 0 < i ∧ i + 1 < name.toList.length then String.mk (name.toList.drop i) else ""
  | none => ""

structure ReportType where
  name : String
  file_types : List String
deriving DecidableEq

/-- The configuration value consumed by one run (`DEFAULT_CONFIG` keys,
lines 41-58). `max_token_count` is optional: the source reads it with
`config.get('max_token_count', float('inf'))`. `report_types` is an
association list in insertion order. -/
structure Config where
  supported_types : List String
  include_folders : List String
  exclude_folders : List String
  max_file_size : Nat
  max_token_count : Option Nat
  report_types : List (String × ReportType)
  results_dir : String
  repo_dir : String

/-- `DEFAULT_CONFIG` of the source (lines 41-58). -/
def DEFAULT_CONFIG : Config := {
  supported_types := [".py", ".ts", ".js", ".md", ".txt"]
  include_folders := []
  exclude_folders := [".git", "node_modules", "venv", "__pycache__", ".venv"]
  max_file_size := 1000000
  max_token_count := none
  report_types := [
    ("1", { name := "All Supported File Types", file_types := ["py", "ts", "js", "md", "txt"] }),
    ("2", { name := "Python, TypeScript, JavaScript", file_types := ["py", "ts", "js"] })]
  results_dir := "output"
  repo_dir := "repos" }

/-- `CodeCompiler.should_include_path` (lines 188-211), phrased on the
components of the path relative to the base directory (the source takes
`path.relative_to(self.base_directory).parts`; scanning only calls it on
paths below the base directory, so the `ValueError` branch never fires
there). Exclusion is checked first and wins; an empty include list
admits everything else; otherwise some component must be included. -/
def should_include_path (cfg : Config) (path_parts : List String) : Bool :=
  if cfg.exclude_folders.any (fun excluded => path_parts.contains excluded) then false
  else if cfg.include_folders.isEmpty then true
  else cfg.include_folders.any (fun included => path_parts.contains included)

/-- A file yielded by the scan: its component path relative to the base
directory, its byte size and its decoded content. -/
structure ScanFile where
  relParts : List String
  size : Nat
  content : String
deriving DecidableEq

/-- `CodeCompiler.scan_directory` (lines 213-230): depth-first walk over
`iterdir`, descending only into directories that pass the filter and
yielding the files whose suffix is in `supported_types` and that pass
the filter. `pre` is the component path of the directory being scanned
relative to the base directory. -/
def scanDir (cfg : Config) (pre : List String) : List Entry → List ScanFile
  | [] => []
  | Entry.dir n ch :: rest =>
    (if should_include_path cfg (pre ++ [n]) then scanDir cfg (pre ++ [n]) ch else []) ++
      scanDir cfg pre rest
  | Entry.file n sz c :: rest =>
    (if cfg.supported_types.contains (pathSuffix n) && should_include_path cfg (pre ++ [n])
      then [⟨pre ++ [n], sz, c⟩] else []) ++
      scanDir cfg pre rest

/-- The scan of the base directory itself (`scan_directory(directory)`
with `self.base_directory = directory`, line 361). -/
def scanDirectory (cfg : Config) (children : List Entry) : List ScanFile :=
  scanDir cfg [] children

/-- The token-ceiling test `token_count > self.config.get('max_token_count', float('inf'))`
(line 160): a missing key means no ceiling ever trips. -/
def exceedsTokenLimit (cfg : Config) (tok : String → Nat) (content : String) : Bool :=
  match cfg.max_token_count with
  | some m => decide (m < tok content)
  | none => false

/-- `CodeCompiler.read_file_content` (lines 133-164) for a regular file:
return `""` when the byte size strictly exceeds `max_file_size`; decoding
succeeds through the latin-1 fallback; return `""` when the non-empty
content strictly exceeds the token ceiling; otherwise return the content. -/
def read_file_content (cfg : Config) (tok : String → Nat) (size : Nat) (content : String) : String :=
  if cfg.max_file_size < size then ""
  else if (content != "") && exceedsTokenLimit cfg tok content then ""
  else content

/-- The analysis record of one file (`analyze_file`, lines 166-186). -/
structure FileRecord where
  file : String
  language : String
  content : String
  lineCount : Nat
  characterCount : Nat
  functionCount : Nat
  classCount : Nat
  methodCount : Nat
  variableCount : Nat
  commentCount : Nat
deriving DecidableEq

/-- `CodeCompiler.analyze_file` (lines 166-186): empty content means an
empty result (`{}` in the source, `none` here); otherwise the metric
record, with `file = str(file_path)` and `language = file_path.suffix[1:]`. -/
def analyze_file (cfg : Config) (tok : String → Nat) (pathStr fname : String)
    (size : Nat) (content : String) : Option FileRecord :=
  let c := read_file_content cfg tok size content
  if c = "" then none
  else
    let lns := c.splitOn "\n"
    some {
      file := pathStr
      language := (pathSuffix fname).drop 1
      content := c
      lineCount := lns.length
      characterCount := c.length
      functionCount := countFunctions c
      classCount := countClasses c
      methodCount := countMethods c
      variableCount := countVariables c
      commentCount := (lns.filter (fun ln => ln.trim.startsWith "#")).length }

/-- `str(file_path)` for the path reached from the base directory by the
relative components `parts` (POSIX rendering of `pathlib`
`/`-joins, which is how `scan_directory` builds the paths it yields). -/
def joinPath (base : String) (parts : List String) : String :=
  parts.foldl (fun acc part => acc ++ "/" ++ part) base

def lastComponent (parts : List String) : String := parts.getLastD ""

/-- `CodeCompiler.compile_directory` (lines 232-255): analyze every
scanned file and keep the successful results in discovery order. -/
def compile_directory (cfg : Config) (tok : String → Nat) (base : String)
    (children : List Entry) : List FileRecord :=
  (scanDirectory cfg children).filterMap
    (fun sf =>
      analyze_file cfg tok (joinPath base sf.relParts) (lastComponent sf.relParts) sf.size sf.content)

/-- `total_tokens = sum(self.count_tokens(result['content']) for result in results)`
(line 279): the aggregate is recomputed from every record's content. -/
def totalTokens (tok : String → Nat) (results : List FileRecord) : Nat :=
  (results.map (fun r => tok r.content)).sum

/-- `Counter(result['language'] for result in results)[file_type]`
(lines 283, 297 and 312). -/
def countLang (results : List FileRecord) (ft : String) : Nat :=
  (results.filter (fun r => r.language == ft)).length

/-- Python `str.capitalize`: first character upper-cased, the rest
lower-cased. -/
def capitalizeStr (s : String) : String :=
  match s.toList with
  | [] => ""
  | c :: cs => String.mk (c.toUpper :: cs.map Char.toLower)

/-- `self.config['report_types'].get(str(report_type))` (line 286). -/
def lookupReport (cfg : Config) (key : String) : Option ReportType :=
  (cfg.report_types.find? (fun p => p.1 == key)).map (fun p => p.2)

/-- Strict comparison of the Python sort key `(x.is_file(), x.name)`
(`False < True`, names by code-point order). -/
def keyLT (a b : Entry) : Bool :=
  (!entryIsFile a && entryIsFile b) ||
    (entryIsFile a == entryIsFile b && decide (entryName a < entryName b))

/-- Stable insertion with respect to `keyLT`: the inserted entry goes in
front of the first element not strictly below it. -/
def insertEntry (e : Entry) : List Entry → List Entry
  | [] => [e]
  | x :: xs => if keyLT x e then x :: insertEntry e xs else e :: x :: xs

/-- `sorted(directory.iterdir(), key=lambda x: (x.is_file(), x.name))`
(line 455): the unique stable sort by that key, here realised as a stable
insertion sort (elements earlier in `iterdir` order are inserted after
later ones and placed before key-equal elements, as Python's stable sort
does). -/
def sortEntries : List Entry → List Entry
  | [] => []
  | e :: rest => insertEntry e (sortEntries rest)

theorem sizeOf_insertEntry (e : Entry) : ∀ l : List Entry,
    sizeOf (insertEntry e l) = 1 + sizeOf e + sizeOf l := by
  intro l
  induction l with
  | nil => simp [insertEntry]
  | cons x xs ih =>
    by_cases h : keyLT x e = true
    · simp [insertEntry, h, ih]
      omega
    · simp at h
      simp [insertEntry, h]

theorem sizeOf_sortEntries : ∀ l : List Entry, sizeOf (sortEntries l) = sizeOf l := by
  intro l
  induction l with
  | nil => rfl
  | cons e rest ih =>
    simp [sortEntries, sizeOf_insertEntry, ih]

/-- One rendered line of the directory tree: the accumulated indentation
text, whether the `is_last` connector was chosen, and the entry name. -/
structure RLine where
  pfx : String
  isLast : Bool
  name : String
deriving DecidableEq

/-- Rendering of one line exactly as the source concatenates it:
`f"{prefix}{'└── ' if is_last else '├── '}{item.name}\n"` (line 460). -/
def rlineStr (l : RLine) : String :=
  l.pfx ++ (if l.isLast then "└── " else "├── ") ++ l.name ++ "\n"

/-- Loop of `CodeCompiler.generate_directory_structure` (lines 450-466)
over the sorted entries, producing one `RLine` per rendered entry: `idx`
is the `enumerate` index, `total` is `len(items)`; entries named in
`exclude_folders` are skipped without resetting the index; the connector
is chosen by `index == len(items) - 1`; directories recurse with the
prefix extended by `'    '` after a last sibling and `'│   '` otherwise. -/
def gdsGo (cfg : Config) (pfx : String) : List Entry → Nat → Nat → List RLine
  | [], _, _ => []
  | item :: rest, idx, total =>
    if cfg.exclude_folders.contains (entryName item) then gdsGo cfg pfx rest (idx + 1) total
    else
      let line : RLine := ⟨pfx, idx == total - 1, entryName item⟩
      let sub :=
        match item with
        | .file _ _ _ => []
        | .dir _ ch =>
          gdsGo cfg (pfx ++ (if idx == total - 1 then "    " else "│   "))
            (sortEntries ch) 0 (sortEntries ch).length
      line :: (sub ++ gdsGo cfg pfx rest (idx + 1) total)
termination_by items => sizeOf items
decreasing_by
  · simp
  · rename_i ch
    rw [sizeOf_sortEntries]
    simp
    omega
  · simp

/-- `CodeCompiler.generate_directory_structure` of the base directory
(line 303 calls it with `self.base_directory` and the default
`prefix=""`), rendered to text. -/
def generate_directory_structure (cfg : Config) (children : List Entry) : String :=
  String.join ((gdsGo cfg "" (sortEntries children) 0 (sortEntries children).length).map rlineStr)

/-- First directory entry with the given name, modelling a path lookup
in the snapshot (names are unique in a real directory). -/
def findEntry (children : List Entry) (n : String) : Option Entry :=
  children.find? (fun e => entryName e == n)

/-- `CodeCompiler.get_readme_content` (lines 441-448): read `README.md`
at the base directory when it exists (`read_file_content` itself returns
`""` when the entry is not a regular file). -/
def get_readme_content (cfg : Config) (tok : String → Nat) (children : List Entry) : String :=
  match findEntry children "README.md" with
  | some (Entry.file _ sz c) => read_file_content cfg tok sz c
  | some (Entry.dir _ _) => ""
  | none => ""

/-- The per-file section header emitted at lines 317-322:
`### {count}/{total}: {file} {language} [{lines} {characters} {functions}
{classes} {methods} {variables} {comments} | Tokens: {tokens}]`. -/
def headerLine (tok : String → Nat) (n total : Nat) (r : FileRecord) : String :=
  "### " ++ toString n ++ "/" ++ toString total ++ ": " ++ r.file ++ " " ++ r.language ++
    " [" ++ toString r.lineCount ++ " " ++ toString r.characterCount ++ " " ++
    toString r.functionCount ++ " " ++ toString r.classCount ++ " " ++
    toString r.methodCount ++ " " ++ toString r.variableCount ++ " " ++
    toString r.commentCount ++ " | Tokens: " ++ toString (tok r.content) ++ "]\n"

/-- The inner loop of one `File by File` section (lines 313-324):
iterate all results in discovery order, and for each record of the
section's language emit its header (with the 1-based running count and
the per-file token count recomputed from the content) followed by the
fenced content. -/
def emitFiles (tok : String → Nat) (ft : String) (total : Nat) : Nat → List FileRecord → String
  | _, [] => ""
  | k, r :: rest =>
    if r.language == ft then
      headerLine tok (k + 1) total r ++ "```" ++ r.language ++ "\n" ++ r.content ++ "\n```\n\n" ++
        emitFiles tok ft total (k + 1) rest
    else emitFiles tok ft total k rest

/-- One `## <Tag> File by File` section (lines 309-324); the total is
`sum(1 for result in results if result['language'] == file_type)`. -/
def sectionFor (tok : String → Nat) (results : List FileRecord) (ft : String) : String :=
  "\n## " ++ capitalizeStr ft ++ " File by File\n" ++ emitFiles tok ft (countLang results ft) 0 results

/-- The per-file token counts actually printed in the section of one
file type, in emission order: precisely the `self.count_tokens(result['content'])`
of line 316 for the records the section's filter keeps. -/
def printedTokens (tok : String → Nat) (ft : String) : List FileRecord → List Nat
  | [] => []
  | r :: rest =>
    if r.language == ft then tok r.content :: printedTokens tok ft rest
    else printedTokens tok ft rest

/-- Sum over all configured file types of the per-file token counts
printed in that type's section headers. -/
def printedTokenSum (tok : String → Nat) (fileTypes : List String) (results : List FileRecord) : Nat :=
  (fileTypes.map (fun ft => (printedTokens tok ft results).sum)).sum

/-- The `### File Type Counts:` block (lines 296-299). -/
def fileTypeCountLines (results : List FileRecord) (fileTypes : List String) : String :=
  String.join (fileTypes.map (fun ft => capitalizeStr ft ++ ": " ++ toString (countLang results ft) ++ "\n"))

/-- `CodeCompiler.generate_report` (lines 264-329). The header (project
title, optional README, overview with the recomputed total token count
and the `File Type Counts:` label) is assembled first; if the report-type
key is absent from `report_types` the function returns only the error
string `Error: Report type <key> not found in configuration` (line 289);
otherwise the counts per configured file type, the directory structure,
and one `File by File` section per configured file type follow. -/
def generate_report (cfg : Config) (tok : String → Nat) (children : List Entry)
    (results : List FileRecord) (directory_name report_type : String) : String :=
  let readme := get_readme_content cfg tok children
  let hdr0 := "# Project: " ++ directory_name ++ "\n\n"
  let hdr1 := if readme = "" then hdr0 else hdr0 ++ "## README\n\n" ++ readme ++ "\n\n"
  let hdr2 := hdr1 ++ "## Codebase Overview\n\n"
  let hdr3 := hdr2 ++ "Total Tokens: " ++ toString (totalTokens tok results) ++ "\n\n"
  let hdr4 := hdr3 ++ "### File Type Counts:\n"
  match lookupReport cfg report_type with
  | none => "Error: Report type " ++ report_type ++ " not found in configuration"
  | some rc =>
    let fileTypes := rc.file_types
    let s1 := hdr4 ++ fileTypeCountLines results fileTypes
    let s2 := s1 ++ "\n## Directory Structure\n" ++ generate_directory_structure cfg children
    let s3 := s2 ++ "\n## Detailed File Contents\n"
    s3 ++ String.join (fileTypes.map (fun ft => sectionFor tok results ft))

/-- `CodeCompiler.run_report` (lines 331-376) for an existing local
directory: scan and analyze; when no supported file was found, log and
write nothing (`None` here); otherwise generate the report and hand it to
`save_report`, which writes it to
`<results_dir>/<directory_name>_report_<report_type>.md` (lines 378-398).
The result is the written file's name and content. -/
def run_report (cfg : Config) (tok : String → Nat) (base directory_name : String)
    (children : List Entry) (report_type : String) : Option (String × String) :=
  let results := compile_directory cfg tok base children
  if results.isEmpty then none
  else
    some (directory_name ++ "_report_" ++ report_type ++ ".md",
      generate_report cfg tok children results directory_name report_type)

theorem scan_keeps_filter (cfg : Config) :
    ∀ (pre : List String) (children : List Entry), ∀ sf ∈ scanDir cfg pre children,
      should_include_path cfg sf.relParts = true := by
  intro pre children
  induction pre, children using scanDir.induct cfg with
  | case1 pre => simp [scanDir]
  | case2 pre n ch rest ih1 ih2 =>
    intro sf hsf
    simp only [scanDir, List.mem_append] at hsf
    rcases hsf with h | h
    · split at h
      · exact ih1 sf h
      · simp at h
    · exact ih2 sf h
  | case3 pre n sz c rest ih =>
    intro sf hsf
    simp only [scanDir, List.mem_append] at hsf
    rcases hsf with h | h
    · split at h
      · rename_i hcond
        have hsf2 : sf = ⟨pre ++ [n], sz, c⟩ := by simpa using h
        subst hsf2
        exact (Bool.and_eq_true _ _ |>.mp hcond).2
      · simp at h
    · exact ih sf h

theorem should_include_no_excluded {cfg : Config} {parts : List String} {part : String}
    (h : should_include_path cfg parts = true) (hpart : part ∈ parts) :
    part ∉ cfg.exclude_folders := by
  intro hex
  unfold should_include_path at h
  have hany : cfg.exclude_folders.any (fun excluded => parts.contains excluded) = true := by
    rw [List.any_eq_true]
    refine ⟨part, hex, ?_⟩
    simpa [List.contains] using hpart
  rw [if_pos (by exact_mod_cast hany)] at h
  exact absurd h (by simp)

theorem should_include_of_no_excl {cfg : Config} {parts : List String}
    (hinc : cfg.include_folders = []) (hexcl : ∀ part ∈ parts, part ∉ cfg.exclude_folders) :
    should_include_path cfg parts = true := by
  unfold should_include_path
  have hany : cfg.exclude_folders.any (fun excluded => parts.contains excluded) = false := by
    rw [List.any_eq_false]
    intro x hx
    simp only [List.contains, List.elem_eq_mem, decide_eq_true_eq]
    intro hmem
    exact hexcl x hmem hx
  simp only [hinc, List.isEmpty_nil, if_true]
  simp [hany]
  intro x hx hmem
  exact hexcl x hmem hx

theorem scan_shape (cfg : Config) :
    ∀ (pre : List String) (children : List Entry), ∀ sf ∈ scanDir cfg pre children,
      ∃ e ∈ children, ∃ tail, sf.relParts = pre ++ entryName e :: tail := by
  intro pre children
  induction pre, children using scanDir.induct cfg with
  | case1 pre => simp [scanDir]
  | case2 pre n ch rest ih1 ih2 =>
    intro sf hsf
    simp only [scanDir, List.mem_append] at hsf
    rcases hsf with h | h
    · split at h
      · obtain ⟨e, he, tail, htail⟩ := ih1 sf h
        refine ⟨Entry.dir n ch, by simp, entryName e :: tail, ?_⟩
        rw [htail]
        simp [entryName]
      · simp at h
    · obtain ⟨e, he, tail, htail⟩ := ih2 sf h
      exact ⟨e, by simp [he], tail, htail⟩
  | case3 pre n sz c rest ih =>
    intro sf hsf
    simp only [scanDir, List.mem_append] at hsf
    rcases hsf with h | h
    · split at h
      · have hsf2 : sf = ⟨pre ++ [n], sz, c⟩ := by simpa using h
        subst hsf2
        exact ⟨Entry.file n sz c, by simp, [], by simp [entryName]⟩
      · simp at h
    · obtain ⟨e, he, tail, htail⟩ := ih sf h
      exact ⟨e, by simp [he], tail, htail⟩

mutual
/-- Auxiliary conjunction of `wfEntry` over a list. -/
def wfAll : List Entry → Bool
  | [] => true
  | e :: rest => wfEntry e && wfAll rest
/-- Well-formedness below one entry: inside every directory the entry
names are pairwise distinct, as they are in a real filesystem. -/
def wfEntry : Entry → Bool
  | .file _ _ _ => true
  | .dir _ ch => decide ((ch.map entryName).Nodup) && wfAll ch
end

/-- Well-formedness of a snapshot given by the base directory's children. -/
def wfDir (children : List Entry) : Bool :=
  decide ((children.map entryName).Nodup) && wfAll children

theorem wfDir_cons_tail {e : Entry} {rest : List Entry} (h : wfDir (e :: rest) = true) :
    wfDir rest = true := by
  unfold wfDir at h ⊢
  simp only [Bool.and_eq_true, decide_eq_true_eq] at h ⊢
  obtain ⟨hnd, hall⟩ := h
  rw [wfAll] at hall
  simp only [Bool.and_eq_true] at hall
  exact ⟨(by simpa using hnd.of_cons), hall.2⟩

theorem wfDir_cons_dir {n : String} {ch rest : List Entry}
    (h : wfDir (Entry.dir n ch :: rest) = true) : wfDir ch = true := by
  unfold wfDir at h
  simp only [Bool.and_eq_true, decide_eq_true_eq] at h
  have hall := h.2
  rw [wfAll] at hall
  simp only [Bool.and_eq_true] at hall
  have he := hall.1
  rw [wfEntry] at he
  simp only [Bool.and_eq_true, decide_eq_true_eq] at he
  unfold wfDir
  simp only [Bool.and_eq_true, decide_eq_true_eq]
  exact he

theorem wfDir_head_name {e : Entry} {rest : List Entry} (h : wfDir (e :: rest) = true) :
    ∀ e2 ∈ rest, entryName e2 ≠ entryName e := by
  intro e2 he2 heq
  unfold wfDir at h
  simp only [Bool.and_eq_true, decide_eq_true_eq] at h
  have hnd := h.1
  rw [List.map_cons, List.nodup_cons] at hnd
  exact hnd.1 (heq ▸ List.mem_map_of_mem entryName he2)

/-- Within a well-formed snapshot the relative paths the scan yields are
pairwise distinct: a file can appear at most once in the output set. -/
theorem scan_nodup (cfg : Config) :
    ∀ (pre : List String) (children : List Entry), wfDir children = true →
      ((scanDir cfg pre children).map ScanFile.relParts).Nodup := by
  intro pre children
  induction pre, children using scanDir.induct cfg with
  | case1 pre => intro _; simp [scanDir]
  | case2 pre n ch rest ih1 ih2 =>
    intro hwf
    rw [scanDir, List.map_append, List.nodup_append]
    refine ⟨?_, ih2 (wfDir_cons_tail hwf), ?_⟩
    · split
      · exact ih1 (wfDir_cons_dir hwf)
      · simp
    · intro a ha hb
      simp only [List.mem_map] at ha hb
      obtain ⟨sfa, hsfa, hae⟩ := ha
      obtain ⟨sfb, hsfb, hbe⟩ := hb
      split at hsfa
      · obtain ⟨ea, hea, ta, hta⟩ := scan_shape cfg (pre ++ [n]) ch sfa hsfa
        obtain ⟨eb, heb, tb, htb⟩ := scan_shape cfg pre rest sfb hsfb
        have heq : pre ++ [n] ++ entryName ea :: ta = pre ++ entryName eb :: tb := by
          rw [← hta, ← htb, hae, hbe]
        rw [List.append_assoc] at heq
        have h2 := List.append_cancel_left heq
        simp only [List.singleton_append, List.cons.injEq] at h2
        exact wfDir_head_name hwf eb heb h2.1.symm
      · simp at hsfa
  | case3 pre n sz c rest ih =>
    intro hwf
    rw [scanDir, List.map_append, List.nodup_append]
    refine ⟨?_, ih (wfDir_cons_tail hwf), ?_⟩
    · split <;> simp
    · intro a ha hb
      simp only [List.mem_map] at ha hb
      obtain ⟨sfa, hsfa, hae⟩ := ha
      obtain ⟨sfb, hsfb, hbe⟩ := hb
      split at hsfa
      · have hsfa2 : sfa = ⟨pre ++ [n], sz, c⟩ := by simpa using hsfa
        subst hsfa2
        obtain ⟨eb, heb, tb, htb⟩ := scan_shape cfg pre rest sfb hsfb
        have heq : pre ++ [n] = pre ++ entryName eb :: tb := by
          rw [← htb, hbe]
          exact hae
        have h2 := List.append_cancel_left heq
        simp only [List.cons.injEq] at h2
        exact wfDir_head_name hwf eb heb h2.1.symm
      · simp at hsfa

/-- Lookup of a file in the snapshot by its relative component path:
descend through directories, ending at a regular file. Returns the file's
size and content. -/
def findFile : List Entry → List String → Option (Nat × String)
  | ch, [n] =>
    match findEntry ch n with
    | some (Entry.file _ sz c) => some (sz, c)
    | _ => none
  | ch, n :: parts@(_ :: _) =>
    match findEntry ch n with
    | some (Entry.dir _ ch2) => findFile ch2 parts
    | _ => none
  | _, [] => none

theorem getLastD_cons_ne {α : Type} {l : List α} (hl : l ≠ []) (a d : α) :
    (a :: l).getLastD d = l.getLastD d := by
  match l, hl with
  | b :: t, _ => simp only [List.getLastD_cons]

/-- Completeness of the scan under an empty include list: a well-formed
file at a path with a supported suffix and no excluded component is
yielded. -/
theorem scan_mem (cfg : Config) (hinc : cfg.include_folders = []) :
    ∀ (parts : List String) (children : List Entry) (pre : List String) (sz : Nat) (content : String),
      findFile children parts = some (sz, content) →
      (∀ part ∈ pre ++ parts, part ∉ cfg.exclude_folders) →
      cfg.supported_types.contains (pathSuffix (parts.getLastD "")) = true →
      (⟨pre ++ parts, sz, content⟩ : ScanFile) ∈ scanDir cfg pre children := by
  intro parts
  induction parts with
  | nil =>
    intro children pre sz content hfind
    simp [findFile] at hfind
  | cons n parts ih =>
    intro children pre sz content hfind hexcl hsup
    induction children with
    | nil =>
      cases parts <;> simp [findFile, findEntry] at hfind
    | cons e rest ihc =>
      by_cases hname : entryName e == n
      · -- the head entry is the one `findEntry` returns
        cases parts with
        | nil =>
          -- the path has a single component: the head must be this file
          rw [findFile] at hfind
          rw [findEntry, @List.find?_cons_of_pos Entry (fun e2 => entryName e2 == n) e rest hname] at hfind
          match e, hname, hfind with
          | Entry.file n0 sz0 c0, hname, hfind =>
            injection hfind with hfind
            injection hfind with h1 h2
            subst h1 h2
            have hn0 : n0 = n := by simpa [entryName] using hname
            subst hn0
            rw [scanDir]
            apply List.mem_append_left
            have hcond : (cfg.supported_types.contains (pathSuffix n0) &&
                should_include_path cfg (pre ++ [n0])) = true := by
              rw [Bool.and_eq_true]
              constructor
              · simpa using hsup
              · exact should_include_of_no_excl hinc hexcl
            rw [if_pos hcond]
            simp
        | cons p ps =>
          -- the path descends into the head directory
          rw [findFile] at hfind
          rw [findEntry, @List.find?_cons_of_pos Entry (fun e2 => entryName e2 == n) e rest hname] at hfind
          match e, hname, hfind with
          | Entry.dir n0 ch2, hname, hfind =>
            have hn0 : n0 = n := by simpa [entryName] using hname
            subst hn0
            rw [scanDir]
            apply List.mem_append_left
            have hcond : should_include_path cfg (pre ++ [n0]) = true := by
              apply should_include_of_no_excl hinc
              intro part hpart
              apply hexcl part
              rcases List.mem_append.mp hpart with h | h
              · exact List.mem_append_left _ h
              · apply List.mem_append_right
                have hpn : part = n0 := by simpa using h
                simp [hpn]
            rw [if_pos hcond]
            have hfind2 : findFile ch2 (p :: ps) = some (sz, content) := by simpa using hfind
            have hmem := ih ch2 (pre ++ [n0]) sz content hfind2 ?_ ?_
            · simpa [List.append_assoc] using hmem
            · intro part hpart
              apply hexcl part
              simpa [List.append_assoc] using hpart
            · rw [← getLastD_cons_ne (List.cons_ne_nil p ps) n0 ""]
              exact hsup
      · -- the head entry does not match: continue with the rest
        have hstep : findFile rest (n :: parts) = some (sz, content) := by
          cases parts with
          | nil =>
            rw [findFile] at hfind ⊢
            rw [findEntry, @List.find?_cons_of_neg Entry (fun e2 => entryName e2 == n) e rest (by simpa using hname)] at hfind
            exact hfind
          | cons p ps =>
            rw [findFile] at hfind ⊢
            rw [findEntry, @List.find?_cons_of_neg Entry (fun e2 => entryName e2 == n) e rest (by simpa using hname)] at hfind
            exact hfind
        have := ihc hstep
        cases e with
        | file n0 sz0 c0 =>
          rw [scanDir]
          exact List.mem_append_right _ this
        | dir n0 ch0 =>
          rw [scanDir]
          exact List.mem_append_right _ this

/-- Every line the tree renderer emits names an entry that is not listed
in `exclude_folders`: listed entries are skipped at every level, and the
subtrees of skipped directories are never visited. -/
theorem gds_names_not_excluded (cfg : Config) :
    ∀ (pfx : String) (items : List Entry) (idx total : Nat),
      ∀ l ∈ gdsGo cfg pfx items idx total, l.name ∉ cfg.exclude_folders := by
  intro pfx items idx total
  induction pfx, items, idx, total using gdsGo.induct cfg with
  | case1 => simp [gdsGo]
  | case2 pfx item rest idx total hex ih =>
    intro l hl
    rw [gdsGo.eq_def] at hl
    simp only [hex, if_true] at hl
    exact ih l hl
  | case3 pfx item rest idx total hex ihdir ihrest =>
    intro l hl
    rw [gdsGo.eq_def] at hl
    simp only [hex, if_false, Bool.false_eq_true, List.mem_cons, List.mem_append] at hl
    rcases hl with h | h | h
    · subst h
      intro hc
      apply hex
      simpa [List.contains] using hc
    · cases item with
      | file n sz c => simp at h
      | dir n ch => exact ihdir l h
    · exact ihrest l h

/-- Statement-side description of the lines one level contributes, for
comparison with the renderer: one line per entry of the sorted listing in
order, entries named in `exclude_folders` omitted, and the last-sibling
connector chosen by the entry's position in the full listing (`idx`
against `total - 1`), excluded entries still occupying positions. -/
def levelLines (cfg : Config) (pfx : String) : List Entry → Nat → Nat → List RLine
  | [], _, _ => []
  | item :: rest, idx, total =>
    if cfg.exclude_folders.contains (entryName item) then levelLines cfg pfx rest (idx + 1) total
    else ⟨pfx, idx == total - 1, entryName item⟩ :: levelLines cfg pfx rest (idx + 1) total

/-- Lines emitted below a directory carry a strictly longer indentation
text: each level appends four characters to the running `pfx`. -/
theorem gds_pfx_extends (cfg : Config) :
    ∀ (pfx : String) (items : List Entry) (idx total : Nat),
      ∀ l ∈ gdsGo cfg pfx items idx total, l.pfx = pfx ∨ pfx.length + 4 ≤ l.pfx.length := by
  intro pfx items idx total
  induction pfx, items, idx, total using gdsGo.induct cfg with
  | case1 => simp [gdsGo]
  | case2 pfx item rest idx total hex ih =>
    intro l hl
    rw [gdsGo.eq_def] at hl
    simp only [hex, if_true] at hl
    exact ih l hl
  | case3 pfx item rest idx total hex ihdir ihrest =>
    intro l hl
    rw [gdsGo.eq_def] at hl
    simp only [hex, if_false, Bool.false_eq_true, List.mem_cons, List.mem_append] at hl
    rcases hl with h | h | h
    · subst h
      left
      rfl
    · cases item with
      | file n sz c => simp at h
      | dir n ch =>
        right
        by_cases hlast : (idx == total - 1) = true
        · simp only [hlast, if_true] at ihdir h ⊢
          rcases ihdir l h with h2 | h2
          · rw [h2, String.length_append]
            simp
            decide
          · rw [String.length_append] at h2
            simp at h2
            omega
        · simp only [hlast, if_false, Bool.false_eq_true] at ihdir h ⊢
          rcases ihdir l h with h2 | h2
          · rw [h2, String.length_append]
            simp
            decide
          · rw [String.length_append] at h2
            simp at h2
            omega
    · exact ihrest l h

/-- The lines of the rendering that carry exactly the indentation `pfx`
are precisely the level's own lines: one per non-excluded entry, in
order, with the last-sibling connector iff the entry sits at the final
index of the full sorted listing. -/
theorem gds_filter_level (cfg : Config) :
    ∀ (pfx : String) (items : List Entry) (idx total : Nat),
      (gdsGo cfg pfx items idx total).filter (fun l => l.pfx == pfx) =
        levelLines cfg pfx items idx total := by
  intro pfx items idx total
  induction pfx, items, idx, total using gdsGo.induct cfg with
  | case1 => simp [gdsGo, levelLines]
  | case2 pfx item rest idx total hex ih =>
    rw [gdsGo.eq_def, levelLines]
    simp only [hex, if_true]
    exact ih
  | case3 pfx item rest idx total hex ihdir ihrest =>
    have hsubgen : ∀ (g : String), g.length = 4 →
        ∀ l ∈ gdsGo cfg (pfx ++ g) (sortEntries (match item with
          | Entry.file _ _ _ => ([] : List Entry)
          | Entry.dir _ ch => ch)) 0 (sortEntries (match item with
          | Entry.file _ _ _ => ([] : List Entry)
          | Entry.dir _ ch => ch)).length, (l.pfx == pfx) = false := by
      intro g hg l hl
      have hext := gds_pfx_extends cfg (pfx ++ g) _ 0 _ l hl
      have hlen : pfx.length + 4 ≤ l.pfx.length := by
        rcases hext with h2 | h2
        · rw [h2, String.length_append, hg]
        · rw [String.length_append, hg] at h2
          omega
      rw [beq_eq_false_iff_ne]
      intro hEq
      rw [hEq] at hlen
      omega
    cases item with
    | file n sz c =>
      rw [gdsGo.eq_def, levelLines]
      simp only [hex, if_false, Bool.false_eq_true]
      rw [List.filter_cons]
      simp only [beq_self_eq_true, if_true, List.nil_append]
      rw [ihrest]
    | dir n ch =>
      by_cases hlast : (idx == total - 1) = true
      · rw [gdsGo.eq_def, levelLines]
        simp only [hex, if_false, Bool.false_eq_true, hlast, if_true]
        rw [List.filter_cons]
        simp only [beq_self_eq_true, if_true]
        rw [List.filter_append]
        have hnil : (gdsGo cfg (pfx ++ "    ") (sortEntries ch) 0
            (sortEntries ch).length).filter (fun l => l.pfx == pfx) = [] := by
          apply List.filter_eq_nil_iff.mpr
          intro a ha
          simp only [Bool.not_eq_true]
          exact hsubgen "    " (by decide) a ha
        rw [hnil, ihrest]
        simp
      · rw [gdsGo.eq_def, levelLines]
        simp only [hex, if_false, Bool.false_eq_true, hlast]
        rw [List.filter_cons]
        simp only [beq_self_eq_true, if_true]
        rw [List.filter_append]
        have hnil : (gdsGo cfg (pfx ++ "│   ") (sortEntries ch) 0
            (sortEntries ch).length).filter (fun l => l.pfx == pfx) = [] := by
          apply List.filter_eq_nil_iff.mpr
          intro a ha
          simp only [Bool.not_eq_true]
          exact hsubgen "│   " (by decide) a ha
        rw [hnil, ihrest]
        simp

theorem printedTokens_cons (tok : String → Nat) (ft : String) (r : FileRecord)
    (rs : List FileRecord) :
    (printedTokens tok ft (r :: rs)).sum =
      (if r.language == ft then tok r.content else 0) + (printedTokens tok ft rs).sum := by
  rw [printedTokens]
  split <;> simp

theorem indicator_sum_zero (tok : String → Nat) (r : FileRecord) :
    ∀ (fts : List String), r.language ∉ fts →
      (fts.map (fun ft => if r.language == ft then tok r.content else 0)).sum = 0 := by
  intro fts
  induction fts with
  | nil => intro _; simp
  | cons f fts ih =>
    intro hmem
    have hne : (r.language == f) = false := by
      rw [beq_eq_false_iff_ne]
      intro h
      exact hmem (h ▸ List.mem_cons_self f fts)
    simp only [List.map_cons, List.sum_cons, hne, Bool.false_eq_true, if_false, Nat.zero_add]
    exact ih (fun h => hmem (List.mem_cons_of_mem f h))

theorem indicator_sum_one (tok : String → Nat) (r : FileRecord) :
    ∀ (fts : List String), fts.Nodup → r.language ∈ fts →
      (fts.map (fun ft => if r.language == ft then tok r.content else 0)).sum = tok r.content := by
  intro fts
  induction fts with
  | nil => intro _ h; simp at h
  | cons f fts ih =>
    intro hnd hmem
    rw [List.nodup_cons] at hnd
    by_cases heq : r.language = f
    · have hT : (r.language == f) = true := beq_iff_eq.mpr heq
      simp only [List.map_cons, List.sum_cons, hT, if_true]
      rw [indicator_sum_zero tok r fts (heq ▸ hnd.1)]
      omega
    · have hne : (r.language == f) = false := beq_eq_false_iff_ne.mpr heq
      simp only [List.map_cons, List.sum_cons, hne, Bool.false_eq_true, if_false, Nat.zero_add]
      apply ih hnd.2
      rcases List.mem_cons.mp hmem with h | h
      · exact absurd h heq
      · exact h

theorem sum_map_add {α : Type} (l : List α) (f g : α → Nat) :
    (l.map (fun x => f x + g x)).sum = (l.map f).sum + (l.map g).sum := by
  induction l with
  | nil => simp
  | cons a l ih =>
    simp only [List.map_cons, List.sum_cons, ih]
    omega

/-- When every record's language occurs exactly once among the configured
file types, the per-section printed token counts add up to the recomputed
aggregate. -/
theorem printedTokenSum_eq_totalTokens (tok : String → Nat) (fileTypes : List String) :
    ∀ (results : List FileRecord), fileTypes.Nodup →
      (∀ r ∈ results, r.language ∈ fileTypes) →
      printedTokenSum tok fileTypes results = totalTokens tok results := by
  intro results hnd
  induction results with
  | nil =>
    intro _
    unfold printedTokenSum totalTokens
    simp only [List.map_nil, List.sum_nil]
    induction fileTypes with
    | nil => simp
    | cons f fts ihf => simp [printedTokens, ihf]
  | cons r rs ih =>
    intro hcov
    have hpt : fileTypes.map (fun ft => (printedTokens tok ft (r :: rs)).sum) =
        fileTypes.map (fun ft =>
          (if r.language == ft then tok r.content else 0) + (printedTokens tok ft rs).sum) :=
      List.map_congr_left (fun ft _ => printedTokens_cons tok ft r rs)
    have step : printedTokenSum tok fileTypes (r :: rs) =
        (fileTypes.map (fun ft => if r.language == ft then tok r.content else 0)).sum +
          printedTokenSum tok fileTypes rs := by
      unfold printedTokenSum
      rw [hpt, sum_map_add]
    rw [step, indicator_sum_one tok r fileTypes hnd (hcov r (by simp)),
      ih (fun x hx => hcov x (by simp [hx]))]
    unfold totalTokens
    simp

/-- Every record in the compiled result set stores as its `file` the path
string the scan yielded: the base directory joined with the root-relative
components — not the relative components alone. -/
theorem compile_file_paths (cfg : Config) (tok : String → Nat) (base : String)
    (children : List Entry) :
    ∀ r ∈ compile_directory cfg tok base children,
      ∃ sf ∈ scanDirectory cfg children, r.file = joinPath base sf.relParts := by
  intro r hr
  unfold compile_directory at hr
  obtain ⟨sf, hsf, hana⟩ := List.mem_filterMap.mp hr
  refine ⟨sf, hsf, ?_⟩
  unfold analyze_file at hana
  simp only at hana
  split at hana
  · exact absurd hana (by simp)
  · injection hana with hana
    rw [← hana]

/-- C2: for every configuration with non-empty `exclude_folders`, a path
with any root-relative component in `exclude_folders` never appears in
the scanned output file set — every yielded file passes
`should_include_path`, whose exclusion test over all components is
checked first and is absolute, regardless of `include_folders`. -/
theorem C2_excluded_never_scanned (cfg : Config) (children : List Entry) (sf : ScanFile)
    (part : String) (hne : cfg.exclude_folders ≠ [])
    (hmem : sf ∈ scanDirectory cfg children) (hpart : part ∈ sf.relParts) :
    part ∉ cfg.exclude_folders :=
  should_include_no_excluded (scan_keeps_filter cfg [] children sf hmem) hpart

theorem C2_witness : "a.py" ∉ DEFAULT_CONFIG.exclude_folders := by
  have hmem : (⟨["a.py"], 1, "x"⟩ : ScanFile) ∈
      scanDirectory DEFAULT_CONFIG [Entry.file "a.py" 1 "x"] := by
    simp [scanDirectory, scanDir, should_include_path, pathSuffix, rfindDot, DEFAULT_CONFIG]
  exact C2_excluded_never_scanned DEFAULT_CONFIG [Entry.file "a.py" 1 "x"] ⟨["a.py"], 1, "x"⟩
    "a.py" (by simp [DEFAULT_CONFIG]) hmem (by simp)

theorem count_eq_one_of_nodup_mem {α : Type} [BEq α] [LawfulBEq α] :
    ∀ {l : List α} {a : α}, l.Nodup → a ∈ l → l.count a = 1 := by
  intro l
  induction l with
  | nil => intro a _ h; simp at h
  | cons b l ih =>
    intro a hnd hmem
    rw [List.nodup_cons] at hnd
    rw [List.count_cons]
    rcases List.mem_cons.mp hmem with h | h
    · subst h
      rw [List.count_eq_zero.mpr hnd.1]
      simp
    · have hne : (b == a) = false := by
        rw [beq_eq_false_iff_ne]
        intro hab
        exact hnd.1 (hab ▸ h)
      rw [ih hnd.2 h, hne]
      simp

/-- C6: with empty `include_folders`, every file of the (well-formed)
snapshot whose suffix is in `supported_types` and none of whose
root-relative components is excluded appears exactly once in the scanned
output file set. -/
theorem C6_nonexcluded_supported_once (cfg : Config) (children : List Entry)
    (parts : List String) (sz : Nat) (content fname : String)
    (hinc : cfg.include_folders = [])
    (hwf : wfDir children = true)
    (hfind : findFile children parts = some (sz, content))
    (hexcl : ∀ part ∈ parts, part ∉ cfg.exclude_folders)
    (hfn : parts.getLastD "" = fname)
    (hsup : cfg.supported_types.contains (pathSuffix fname) = true) :
    ((scanDirectory cfg children).map ScanFile.relParts).count parts = 1 := by
  have hmem : (⟨parts, sz, content⟩ : ScanFile) ∈ scanDir cfg [] children := by
    have h := scan_mem cfg hinc parts children [] sz content hfind ?_ ?_
    · simpa using h
    · simpa using hexcl
    · rw [hfn]
      exact hsup
  have hmem2 : parts ∈ (scanDirectory cfg children).map ScanFile.relParts :=
    List.mem_map.mpr ⟨⟨parts, sz, content⟩, hmem, rfl⟩
  exact count_eq_one_of_nodup_mem (scan_nodup cfg [] children hwf) hmem2

theorem C6_witness :
    ((scanDirectory DEFAULT_CONFIG [Entry.file "a.py" 1 "x"]).map ScanFile.relParts).count
      ["a.py"] = 1 := by
  apply C6_nonexcluded_supported_once DEFAULT_CONFIG [Entry.file "a.py" 1 "x"] ["a.py"] 1 "x" "a.py"
  · rfl
  · simp [wfDir, wfAll, wfEntry, entryName]
  · simp [findFile, findEntry, entryName]
  · simp [DEFAULT_CONFIG]
  · rfl
  · simp [pathSuffix, rfindDot, DEFAULT_CONFIG]

/-- C7: the report pipeline is a pure function of the filesystem snapshot
(including its listing order), the configuration, the tokenizer and the
report-type key; the source reads no clock or other ambient input while
rendering, so two compilations of identical inputs yield byte-identical
report text and an identical written file. -/
theorem C7_deterministic (cfg : Config) (tok : String → Nat) (base directory_name : String)
    (children : List Entry) (report_type : String) (out1 out2 : Option (String × String))
    (h1 : out1 = run_report cfg tok base directory_name children report_type)
    (h2 : out2 = run_report cfg tok base directory_name children report_type) :
    out1 = out2 :=
  h1.trans h2.symm

theorem C7_witness :
    run_report DEFAULT_CONFIG String.length "r" "r" [Entry.file "a.py" 1 "x"] "1" =
      run_report DEFAULT_CONFIG String.length "r" "r" [Entry.file "a.py" 1 "x"] "1" :=
  C7_deterministic DEFAULT_CONFIG String.length "r" "r" [Entry.file "a.py" 1 "x"] "1" _ _ rfl rfl

/-- C9: in every record `analyze_file` produces, the method count is at
most the function count: the `methods` pattern extends the `functions`
pattern with `(self`, so `re.findall` finds at most as many method
occurrences as function occurrences. -/
theorem C9_methodCount_le_functionCount (cfg : Config) (tok : String → Nat)
    (pathStr fname : String) (size : Nat) (content : String) (r : FileRecord)
    (h : analyze_file cfg tok pathStr fname size content = some r) :
    r.methodCount ≤ r.functionCount := by
  unfold analyze_file at h
  simp only at h
  split at h
  · exact absurd h (by simp)
  · injection h with h
    rw [← h]
    exact countMethods_le_countFunctions _

theorem C9_witness :
    ∃ r, analyze_file DEFAULT_CONFIG String.length "r/a.py" "a.py" 1 "x" = some r ∧
      r.methodCount ≤ r.functionCount := by
  have hsome : (analyze_file DEFAULT_CONFIG String.length "r/a.py" "a.py" 1 "x").isSome = true := rfl
  obtain ⟨r, hr⟩ := Option.isSome_iff_exists.mp hsome
  exact ⟨r, hr, C9_methodCount_le_functionCount _ _ _ _ _ _ r hr⟩

/-- C10: a file whose own final name component is listed in
`exclude_folders` is excluded from the scanned output file set, and the
tree renderer omits every entry (file or directory) whose name is listed. -/
theorem C10_own_name_excluded (cfg : Config) (children : List Entry) :
    (∀ sf ∈ scanDirectory cfg children, ∀ fname, sf.relParts.getLast? = some fname →
        fname ∉ cfg.exclude_folders) ∧
      (∀ l ∈ gdsGo cfg "" (sortEntries children) 0 (sortEntries children).length,
        l.name ∉ cfg.exclude_folders) := by
  constructor
  · intro sf hsf fname hlast
    exact should_include_no_excluded (scan_keeps_filter cfg [] children sf hsf)
      (List.mem_of_getLast?_eq_some hlast)
  · exact gds_names_not_excluded cfg "" (sortEntries children) 0 _

theorem C10_witness :
    ("a.py" ∉ DEFAULT_CONFIG.exclude_folders) ∧ ("b" ∉ DEFAULT_CONFIG.exclude_folders) := by
  constructor
  · apply (C10_own_name_excluded DEFAULT_CONFIG [Entry.file "a.py" 1 "x"]).1
      ⟨["a.py"], 1, "x"⟩ ?_ "a.py" rfl
    simp [scanDirectory, scanDir, should_include_path, pathSuffix, rfindDot, DEFAULT_CONFIG]
  · apply (C10_own_name_excluded DEFAULT_CONFIG [Entry.dir "b" []]).2 ⟨"", true, "b"⟩
    simp [gdsGo, sortEntries, insertEntry, keyLT, entryName, entryIsFile, DEFAULT_CONFIG]

/-- C1 counterexample: with the default configuration, a scan root
holding one analyzable file, and the unknown report-type key `"99"`,
`run_report` does not fail — `generate_report` returns the error string
and `run_report` hands it to `save_report`, so a report file named
`r_report_99.md` containing that error text is written. This refutes the
claim that the failure is surfaced as an exception and no file is
written. -/
theorem C1_counterexample :
    lookupReport DEFAULT_CONFIG "99" = none ∧
      run_report DEFAULT_CONFIG String.length "r" "r" [Entry.file "a.py" 1 "x"] "99" =
        some ("r_report_99.md", "Error: Report type 99 not found in configuration") := by
  constructor
  · rfl
  · simp [run_report, compile_directory, scanDirectory, scanDir, should_include_path, pathSuffix,
      rfindDot, DEFAULT_CONFIG, analyze_file, read_file_content, exceedsTokenLimit, joinPath,
      lastComponent, generate_report, lookupReport, List.find?]

/-- C1 (amended): when the report-type key is absent from
`config.report_types`, `generate_report` returns the error string
`Error: Report type <key> not found in configuration` instead of raising,
and `run_report` (whenever the analysis found at least one file) writes
that string to the usual report file `<name>_report_<key>.md`. -/
theorem C1_amended (cfg : Config) (tok : String → Nat) (base directory_name : String)
    (children : List Entry) (key : String)
    (hkey : lookupReport cfg key = none)
    (hres : compile_directory cfg tok base children ≠ []) :
    generate_report cfg tok children (compile_directory cfg tok base children)
        directory_name key =
      "Error: Report type " ++ key ++ " not found in configuration" ∧
    run_report cfg tok base directory_name children key =
      some (directory_name ++ "_report_" ++ key ++ ".md",
        "Error: Report type " ++ key ++ " not found in configuration") := by
  have hgen : ∀ results : List FileRecord,
      generate_report cfg tok children results directory_name key =
        "Error: Report type " ++ key ++ " not found in configuration" := by
    intro results
    unfold generate_report
    rw [hkey]
  refine ⟨hgen _, ?_⟩
  unfold run_report
  rw [if_neg (by simpa [List.isEmpty_iff] using hres)]
  rw [hgen]

theorem C1_amended_witness :
    lookupReport DEFAULT_CONFIG "99" = none ∧
      compile_directory DEFAULT_CONFIG String.length "r" [Entry.file "a.py" 1 "x"] ≠ [] ∧
      run_report DEFAULT_CONFIG String.length "r" "r" [Entry.file "a.py" 1 "x"] "99" =
        some ("r_report_99.md", "Error: Report type 99 not found in configuration") := by
  have h1 : lookupReport DEFAULT_CONFIG "99" = none := rfl
  have h2 : compile_directory DEFAULT_CONFIG String.length "r" [Entry.file "a.py" 1 "x"] ≠ [] := by
    simp [compile_directory, scanDirectory, scanDir, should_include_path, pathSuffix, rfindDot,
      DEFAULT_CONFIG, analyze_file, read_file_content, exceedsTokenLimit]
  exact ⟨h1, h2,
    (C1_amended DEFAULT_CONFIG String.length "r" "r" [Entry.file "a.py" 1 "x"] "99" h1 h2).2⟩

/-- C3 counterexample: scanning the root `r` containing `a.py`, the
record's `file` field is `r/a.py` — the path as traversed including the
scan root — and not the root-relative path `a.py` the claim requires. -/
theorem C3_counterexample :
    (compile_directory DEFAULT_CONFIG String.length "r" [Entry.file "a.py" 1 "x"]).map
        FileRecord.file = ["r/a.py"] ∧ ("r/a.py" : String) ≠ "a.py" := by
  constructor
  · simp [compile_directory, scanDirectory, scanDir, should_include_path, pathSuffix, rfindDot,
      DEFAULT_CONFIG, analyze_file, read_file_content, exceedsTokenLimit, joinPath, lastComponent]
  · decide

/-- C3 (amended): the path stored in a record's `file` field (and emitted
in the per-file header line) is `str(file_path)` for the path the scan
traversed: the scan root joined with the root-relative components, not
the root-relative path alone. -/
theorem C3_amended (cfg : Config) (tok : String → Nat) (base : String)
    (children : List Entry) :
    ∀ r ∈ compile_directory cfg tok base children,
      ∃ sf ∈ scanDirectory cfg children, r.file = joinPath base sf.relParts :=
  compile_file_paths cfg tok base children

theorem C3_amended_witness :
    ∃ r ∈ compile_directory DEFAULT_CONFIG String.length "r" [Entry.file "a.py" 1 "x"],
      ∃ sf ∈ scanDirectory DEFAULT_CONFIG [Entry.file "a.py" 1 "x"],
        r.file = joinPath "r" sf.relParts := by
  have hne : compile_directory DEFAULT_CONFIG String.length "r" [Entry.file "a.py" 1 "x"] ≠ [] := by
    simp [compile_directory, scanDirectory, scanDir, should_include_path, pathSuffix, rfindDot,
      DEFAULT_CONFIG, analyze_file, read_file_content, exceedsTokenLimit]
  obtain ⟨r, hr⟩ := List.exists_mem_of_ne_nil _ hne
  exact ⟨r, hr, C3_amended DEFAULT_CONFIG String.length "r" [Entry.file "a.py" 1 "x"] r hr⟩

/-- C5 counterexample: with the default configuration, report type `"2"`
(file types `py`, `ts`, `js`) and a root holding only `a.md`, the
`Total Tokens` value sums over all analyzed records — including the `md`
record — while no section header ever prints that record's token count,
so the total differs from the sum of printed per-file counts. -/
theorem C5_counterexample :
    (lookupReport DEFAULT_CONFIG "2").map ReportType.file_types = some ["py", "ts", "js"] ∧
      totalTokens String.length
          (compile_directory DEFAULT_CONFIG String.length "r" [Entry.file "a.md" 5 "hello"]) ≠
        printedTokenSum String.length ["py", "ts", "js"]
          (compile_directory DEFAULT_CONFIG String.length "r" [Entry.file "a.md" 5 "hello"]) := by
  constructor
  · rfl
  · simp [compile_directory, scanDirectory, scanDir, should_include_path, pathSuffix, rfindDot,
      DEFAULT_CONFIG, analyze_file, read_file_content, exceedsTokenLimit, joinPath, lastComponent,
      totalTokens, printedTokenSum, printedTokens]
    decide

/-- C5 (amended): the `Total Tokens` value equals the sum over all
analyzed records of the independently recomputed token count; it equals
the sum of the token counts printed in the section headers precisely when
the report type's file-type list (taken without duplicates) covers every
record's language. -/
theorem C5_amended (tok : String → Nat) (fileTypes : List String)
    (results : List FileRecord) (hnd : fileTypes.Nodup)
    (hcov : ∀ r ∈ results, r.language ∈ fileTypes) :
    printedTokenSum tok fileTypes results = totalTokens tok results :=
  printedTokenSum_eq_totalTokens tok fileTypes results hnd hcov

def recC5 : FileRecord := {
  file := "r/a.py", language := "py", content := "hello", lineCount := 1, characterCount := 5,
  functionCount := 0, classCount := 0, methodCount := 0, variableCount := 0, commentCount := 0 }

theorem C5_amended_witness :
    printedTokenSum String.length ["py", "md"] [recC5] =
      totalTokens String.length [recC5] :=
  C5_amended String.length ["py", "md"] [recC5] (by decide)
    (by intro r hr; rcases List.mem_singleton.mp hr with h; rw [h]; decide)

/-- C8 counterexample: with the default configuration (which excludes
`venv`) and a directory whose sorted listing is `[a, venv]`, the excluded
entry `venv` occupies the last index, so the only shown entry `a` — which
is the last shown sibling — is rendered with the non-last connector
`├── ` and no `└── ` line appears at all. This refutes the claim that
exactly the last shown entry carries the last-sibling glyph. -/
theorem C8_counterexample :
    (gdsGo DEFAULT_CONFIG ""
        (sortEntries [Entry.dir "a" [], Entry.dir "venv" []]) 0
        (sortEntries [Entry.dir "a" [], Entry.dir "venv" []]).length).map
        (fun l => (l.isLast, l.name)) = [(false, "a")] ∧
      generate_directory_structure DEFAULT_CONFIG [Entry.dir "a" [], Entry.dir "venv" []] =
        "├── a\n" := by
  constructor
  · simp [gdsGo, sortEntries, insertEntry, keyLT, entryName, entryIsFile, DEFAULT_CONFIG,
      String.lt_iff_toList_lt, (by decide : ¬ (['v', 'e', 'n', 'v'] < ['a']))]
  · simp [generate_directory_structure, gdsGo, sortEntries, insertEntry, keyLT, entryName,
      entryIsFile, DEFAULT_CONFIG, rlineStr, String.join, String.lt_iff_toList_lt,
      (by decide : ¬ (['v', 'e', 'n', 'v'] < ['a']))]

/-- C8 (amended): at every level of the rendering, the shown lines (the
lines carrying that level's indentation) are exactly the non-excluded
entries of the sorted listing in order, and a line carries the
last-sibling connector `└── ` precisely when its entry sits at the last
index of the full sorted listing, excluded entries still counted — so
when the final sorted entry is excluded, no shown line at that level
carries the last-sibling connector. -/
theorem C8_amended (cfg : Config) (pfx : String) (items : List Entry) (idx total : Nat) :
    (gdsGo cfg pfx items idx total).filter (fun l => l.pfx == pfx) =
      levelLines cfg pfx items idx total :=
  gds_filter_level cfg pfx items idx total

/-- C4: boundary semantics of the two ceilings in `read_file_content`/
`analyze_file`, for every configuration. A file whose byte size equals
`max_file_size` exactly is analyzed (given decodable non-empty content
within whatever token budget is in force — trivially so when no
`max_token_count` is configured), while one byte more is skipped
unconditionally; and whenever `max_token_count` is configured, a file
whose token count equals the ceiling exactly is analyzed while one token
more is skipped — both tests use strict `>` in the source. -/
theorem C4_boundaries (cfg : Config) (tok : String → Nat) (pathStr fname : String)
    (szOver szA szB : Nat) (cEq cOver cTokEq cTokOver : String)
    (h1c : cEq ≠ "") (h1tok : exceedsTokenLimit cfg tok cEq = false)
    (h2sz : szOver = cfg.max_file_size + 1)
    (h3c : cTokEq ≠ "") (h3sz : szA ≤ cfg.max_file_size)
    (h4sz : szB ≤ cfg.max_file_size) :
    (analyze_file cfg tok pathStr fname cfg.max_file_size cEq).isSome = true ∧
      analyze_file cfg tok pathStr fname szOver cOver = none ∧
      (∀ m, cfg.max_token_count = some m → tok cTokEq = m →
        (analyze_file cfg tok pathStr fname szA cTokEq).isSome = true) ∧
      (∀ m, cfg.max_token_count = some m → tok cTokOver = m + 1 →
        analyze_file cfg tok pathStr fname szB cTokOver = none) := by
  refine ⟨?_, ?_, ?_, ?_⟩
  · have hread : read_file_content cfg tok cfg.max_file_size cEq = cEq := by
      unfold read_file_content
      rw [if_neg (by omega), h1tok]
      simp
    unfold analyze_file
    rw [hread, if_neg h1c]
    simp
  · have hread : read_file_content cfg tok szOver cOver = "" := by
      unfold read_file_content
      rw [if_pos (by omega)]
    unfold analyze_file
    rw [hread]
    simp
  · intro m hm h3tok
    have hex3 : exceedsTokenLimit cfg tok cTokEq = false := by
      unfold exceedsTokenLimit
      rw [hm]
      simp only [decide_eq_false_iff_not]
      omega
    have hread : read_file_content cfg tok szA cTokEq = cTokEq := by
      unfold read_file_content
      rw [if_neg (by omega), hex3]
      simp
    unfold analyze_file
    rw [hread, if_neg h3c]
    simp
  · intro m hm h4tok
    have hex4 : exceedsTokenLimit cfg tok cTokOver = true := by
      unfold exceedsTokenLimit
      rw [hm]
      simp only [decide_eq_true_eq]
      omega
    by_cases hc : cTokOver = ""
    · subst hc
      have hread : read_file_content cfg tok szB "" = "" := by
        unfold read_file_content
        rw [if_neg (by omega)]
        simp
      unfold analyze_file
      rw [hread]
      simp
    · have hread : read_file_content cfg tok szB cTokOver = "" := by
        unfold read_file_content
        rw [if_neg (by omega), hex4]
        simp [hc]
      unfold analyze_file
      rw [hread]
      simp

def cfgC4 : Config := { DEFAULT_CONFIG with max_token_count := some 3 }

theorem C4_witness :
    ((analyze_file DEFAULT_CONFIG String.length "p" "a.py"
          DEFAULT_CONFIG.max_file_size "a").isSome = true ∧
        analyze_file DEFAULT_CONFIG String.length "p" "a.py"
          (DEFAULT_CONFIG.max_file_size + 1) "b" = none) ∧
      ((analyze_file cfgC4 String.length "p" "a.py" 5 "abc").isSome = true ∧
        analyze_file cfgC4 String.length "p" "a.py" 5 "abcd" = none) := by
  constructor
  · have h := C4_boundaries DEFAULT_CONFIG String.length "p" "a.py"
      (DEFAULT_CONFIG.max_file_size + 1) 5 5 "a" "b" "abc" "abcd"
      (by decide) rfl rfl (by decide) (by decide) (by decide)
    exact ⟨h.1, h.2.1⟩
  · have h := C4_boundaries cfgC4 String.length "p" "a.py"
      (cfgC4.max_file_size + 1) 5 5 "a" "b" "abc" "abcd"
      (by decide) rfl rfl (by decide) (by decide) (by decide)
    exact ⟨h.2.2.1 3 rfl (by decide), h.2.2.2 3 rfl (by decide)⟩
